import Mathlib

/-!
Shallow embedding of the storage subsystem of BotBuilder
(`src/source/internal/data.ts` together with `autoCatch` from
`src/source/utility/common.ts`).

Paths, identifiers and file contents are modelled as `List Char`.
JSON payloads are modelled by the mutual inductive `Json`/`JsonList`/`JsonObj`;
the platform builtins `JSON.stringify(v, null, "\t")` and `JSON.parse` are
modelled by `render`/`jsonParse` below.  The filesystem is a pair of a
directory set and a file map; every `fs/promises` call that the source wraps
in `autoCatch` is modelled as a total function returning a success flag,
while the one unguarded throw site (`JSON.parse` inside `FileStorage.get`)
is modelled with `Except Unit`.
-/

abbrev Str := List Char

-- JSON-serializable values (numbers modelled as integers).
mutual

inductive Json where
  | null : Json
  | bool (b : Bool) : Json
  | num (n : Int) : Json
  | str (s : Str) : Json
  | arr (elems : JsonList) : Json
  | obj (fields : JsonObj) : Json

inductive JsonList where
  | nil : JsonList
  | cons (hd : Json) (tl : JsonList) : JsonList

inductive JsonObj where
  | onil : JsonObj
  | ocons (key : Str) (val : Json) (tl : JsonObj) : JsonObj

end

/-! ### Identifier resolution (`BaseStorage._idPath` / `BaseStorage._dirPath`) -/

/-- `BaseStorage._rootPath = "./data"`. -/
def rootPath : Str := "./data".toList

/-- `id.replace(/\\/g, "/")`. -/
def normSlashes (s : Str) : Str := s.map (fun c => if c = '\\' then '/' else c)

/-- `if (id.startsWith("/")) id = id.slice(1)`. -/
def dropLeadSlash (s : Str) : Str :=
  match s with
  | [] => []
  | c :: t => if c = '/' then t else c :: t

/-- `BaseStorage._idPath(id, extension = "json")`: normalize separators, strip one
leading slash, then append `.${extension}` unless `id` already ends with it. -/
def idPath (id : Str) (ext : Option Str) : Str :=
  let e := ext.getD "json".toList
  let i := dropLeadSlash (normSlashes id)
  if e.isSuffixOf i then rootPath ++ '/' :: i
  else rootPath ++ '/' :: i ++ '.' :: e

/-- `BaseStorage._dirPath(dir)`: normalize separators, strip one leading slash,
ensure one trailing slash, prefix the root. -/
def dirPath (dir : Str) : Str :=
  let d := dropLeadSlash (normSlashes dir)
  let d := if ['/'].isSuffixOf d then d else d ++ ['/']
  rootPath ++ '/' :: d

/-! ### Storage options -/

/-- `StorageOptions` record; a JS `undefined` options argument is the same as
all fields left at their defaults. -/
structure StorageOptions where
  extension : Option Str
  noCache : Bool
  noFile : Bool
deriving Repr, DecidableEq

/-- The absent / all-default options record. -/
def defaultOpts : StorageOptions := ⟨none, false, false⟩

/-- Truthiness test `options && options.extension && options.extension !== "json"`
deciding raw-text mode in `FileStorage.get`/`set` (an empty-string extension is
falsy in JS, hence also selects the JSON branch). -/
def rawExt (o : StorageOptions) : Bool :=
  match o.extension with
  | none => false
  | some e => !e.isEmpty && !(e = "json".toList : Bool)

/-! ### The JSON codec builtins -/

/-- Decimal digits of a natural number, most significant first
(`String(n)` for a non-negative integer). -/
def natChars (n : Nat) : Str :=
  if n < 10 then [Nat.digitChar n]
  else natChars (n / 10) ++ [Nat.digitChar (n % 10)]
termination_by n
decreasing_by exact Nat.div_lt_self (by omega) (by omega)

/-- Decimal rendering of an integer. -/
def intRender (n : Int) : Str :=
  if n < 0 then '-' :: natChars n.natAbs else natChars n.natAbs

/-- JSON escaping of one string character as performed by `JSON.stringify`. -/
def escC (c : Char) : Str :=
  if c = '"' then ['\\', '"']
  else if c = '\\' then ['\\', '\\']
  else if c = '\n' then ['\\', 'n']
  else if c = '\t' then ['\\', 't']
  else if c = '\r' then ['\\', 'r']
  else [c]

/-- JSON escaping of a string body. -/
def esc : Str → Str
  | [] => []
  | c :: cs => escC c ++ esc cs

/-- A quoted JSON string literal. -/
def renderS (s : Str) : Str := '"' :: esc s ++ ['"']

/-- Indentation produced by `JSON.stringify(_, null, "\t")` at nesting depth `d`. -/
def indent (d : Nat) : Str := List.replicate d '\t'

-- `JSON.stringify(v, null, "\t")`, the serialization used by `FileStorage.set`
-- for JSON-mode writes (tab-indented pretty printing).
mutual

def render : Json → Nat → Str
  | .null, _ => "null".toList
  | .bool true, _ => "true".toList
  | .bool false, _ => "false".toList
  | .num n, _ => intRender n
  | .str s, _ => renderS s
  | .arr .nil, _ => "[]".toList
  | .arr (.cons x t), d =>
      '[' :: '\n' :: renderItems (.cons x t) (d + 1) ++ '\n' :: indent d ++ [']']
  | .obj .onil, _ => "{}".toList
  | .obj (.ocons k v t), d =>
      '{' :: '\n' :: renderFields (.ocons k v t) (d + 1) ++ '\n' :: indent d ++ ['}']

def renderItems : JsonList → Nat → Str
  | .nil, _ => []
  | .cons x .nil, d => indent d ++ render x d
  | .cons x (.cons y t), d =>
      indent d ++ render x d ++ ',' :: '\n' :: renderItems (.cons y t) d

def renderFields : JsonObj → Nat → Str
  | .onil, _ => []
  | .ocons k v .onil, d => indent d ++ renderS k ++ ':' :: ' ' :: render v d
  | .ocons k v (.ocons k2 v2 t), d =>
      indent d ++ renderS k ++ ':' :: ' ' :: render v d ++
        ',' :: '\n' :: renderFields (.ocons k2 v2 t) d

end

-- JS string coercion `${data}` used by `FileStorage.set` for non-JSON
-- extensions (`Array.prototype.toString` joins with commas; a plain object
-- prints as `[object Object]`).
mutual

def jsToString : Json → Str
  | .null => "null".toList
  | .bool true => "true".toList
  | .bool false => "false".toList
  | .num n => intRender n
  | .str s => s
  | .arr l => jsArrToString l
  | .obj _ => "[object Object]".toList

def jsArrToString : JsonList → Str
  | .nil => []
  | .cons x .nil => jsToString x
  | .cons x (.cons y t) => jsToString x ++ ',' :: jsArrToString (.cons y t)

end

/-! ### `JSON.parse` model: a whitespace-tolerant lexer and a token parser -/

/-- Lexical tokens of JSON. -/
inductive Tok where
  | lb | rb | lk | rk | cm | cl
  | tnull
  | tbool (b : Bool)
  | tstr (s : Str)
  | tnum (n : Int)
deriving Repr, DecidableEq

/-- Lexer mode: between tokens, inside a string (accumulator reversed, escape
flag), inside a number, inside a bare word, or failed. -/
inductive LexMode where
  | norm
  | instr (acc : Str) (escFlag : Bool)
  | innum (neg : Bool) (hasD : Bool) (acc : Nat)
  | inword (acc : Str)
  | lfail
deriving Repr, DecidableEq

/-- Lexer state: tokens so far (reversed) and the current mode. -/
structure LexSt where
  toks : List Tok
  mode : LexMode
deriving Repr, DecidableEq

/-- JSON insignificant whitespace. -/
def isWsC (c : Char) : Bool := c = ' ' || c = '\n' || c = '\t' || c = '\r'

/-- Value of a decimal digit character. -/
def dval (c : Char) : Nat := c.toNat - '0'.toNat

/-- The escape codes understood inside a JSON string literal. -/
def unescC (c : Char) : Option Char :=
  if c = '"' then some '"'
  else if c = '\\' then some '\\'
  else if c = '/' then some '/'
  else if c = 'n' then some '\n'
  else if c = 't' then some '\t'
  else if c = 'r' then some '\r'
  else if c = 'b' then some (Char.ofNat 8)
  else if c = 'f' then some (Char.ofNat 12)
  else none

/-- Finish a pending number (a lone minus sign is a lexical error). -/
def numTok (neg hasD : Bool) (acc : Nat) : Option Tok :=
  if hasD then some (.tnum (if neg then -(acc : Int) else (acc : Int))) else none

/-- Finish a pending bare word. -/
def wordTok (w : Str) : Option Tok :=
  if w = "null".toList then some .tnull
  else if w = "true".toList then some (.tbool true)
  else if w = "false".toList then some (.tbool false)
  else none

/-- One lexer transition from between-token position. -/
def stepNorm (ts : List Tok) (c : Char) : LexSt :=
  if isWsC c then ⟨ts, .norm⟩
  else if c = '{' then ⟨.lb :: ts, .norm⟩
  else if c = '}' then ⟨.rb :: ts, .norm⟩
  else if c = '[' then ⟨.lk :: ts, .norm⟩
  else if c = ']' then ⟨.rk :: ts, .norm⟩
  else if c = ',' then ⟨.cm :: ts, .norm⟩
  else if c = ':' then ⟨.cl :: ts, .norm⟩
  else if c = '"' then ⟨ts, .instr [] false⟩
  else if c = '-' then ⟨ts, .innum true false 0⟩
  else if c.isDigit then ⟨ts, .innum false true (dval c)⟩
  else if c.isAlpha then ⟨ts, .inword [c]⟩
  else ⟨ts, .lfail⟩

/-- One lexer transition. -/
def step (s : LexSt) (c : Char) : LexSt :=
  match s.mode with
  | .lfail => s
  | .norm => stepNorm s.toks c
  | .instr acc escFlag =>
      if escFlag then
        match unescC c with
        | some c' => ⟨s.toks, .instr (c' :: acc) false⟩
        | none => ⟨s.toks, .lfail⟩
      else if c = '\\' then ⟨s.toks, .instr acc true⟩
      else if c = '"' then ⟨.tstr acc.reverse :: s.toks, .norm⟩
      else ⟨s.toks, .instr (c :: acc) false⟩
  | .innum neg hasD acc =>
      if c.isDigit then ⟨s.toks, .innum neg true (acc * 10 + dval c)⟩
      else
        match numTok neg hasD acc with
        | some t => stepNorm (t :: s.toks) c
        | none => ⟨s.toks, .lfail⟩
  | .inword acc =>
      if c.isAlpha then ⟨s.toks, .inword (c :: acc)⟩
      else
        match wordTok acc.reverse with
        | some t => stepNorm (t :: s.toks) c
        | none => ⟨s.toks, .lfail⟩

/-- Flush a pending token at end of input. -/
def flushEnd (s : LexSt) : Option (List Tok) :=
  match s.mode with
  | .norm => some s.toks
  | .innum neg hasD acc => (numTok neg hasD acc).map (· :: s.toks)
  | .inword acc => (wordTok acc.reverse).map (· :: s.toks)
  | _ => none

/-- The lexer: a left fold of `step` followed by the final flush. -/
def tokenize (cs : Str) : Option (List Tok) :=
  (flushEnd (cs.foldl step ⟨[], .norm⟩)).map List.reverse

-- Token streams of serialized values (used to state lexer/parser correctness).
mutual

def emit : Json → List Tok
  | .null => [.tnull]
  | .bool b => [.tbool b]
  | .num n => [.tnum n]
  | .str s => [.tstr s]
  | .arr .nil => [.lk, .rk]
  | .arr (.cons x t) => .lk :: emitItems (.cons x t) ++ [.rk]
  | .obj .onil => [.lb, .rb]
  | .obj (.ocons k v t) => .lb :: emitFields (.ocons k v t) ++ [.rb]

def emitItems : JsonList → List Tok
  | .nil => []
  | .cons x .nil => emit x
  | .cons x (.cons y t) => emit x ++ .cm :: emitItems (.cons y t)

def emitFields : JsonObj → List Tok
  | .onil => []
  | .ocons k v .onil => .tstr k :: .cl :: emit v
  | .ocons k v (.ocons k2 v2 t) =>
      .tstr k :: .cl :: emit v ++ .cm :: emitFields (.ocons k2 v2 t)

end

-- Recursive-descent parser over the token stream, with explicit fuel.
mutual

def parseV : Nat → List Tok → Option (Json × List Tok)
  | 0, _ => none
  | _ + 1, [] => none
  | f + 1, t :: ts =>
      match t with
      | .tnull => some (.null, ts)
      | .tbool b => some (.bool b, ts)
      | .tnum n => some (.num n, ts)
      | .tstr s => some (.str s, ts)
      | .lk =>
          match ts with
          | .rk :: ts' => some (.arr .nil, ts')
          | _ =>
              match parseItems f ts with
              | some (l, r) => some (.arr l, r)
              | none => none
      | .lb =>
          match ts with
          | .rb :: ts' => some (.obj .onil, ts')
          | _ =>
              match parseFields f ts with
              | some (l, r) => some (.obj l, r)
              | none => none
      | _ => none

def parseItems : Nat → List Tok → Option (JsonList × List Tok)
  | 0, _ => none
  | f + 1, ts =>
      match parseV f ts with
      | none => none
      | some (x, rest) =>
          match rest with
          | .cm :: r2 =>
              match parseItems f r2 with
              | some (l, r) => some (.cons x l, r)
              | none => none
          | .rk :: r2 => some (.cons x .nil, r2)
          | _ => none

def parseFields : Nat → List Tok → Option (JsonObj × List Tok)
  | 0, _ => none
  | f + 1, ts =>
      match ts with
      | .tstr k :: .cl :: ts2 =>
          match parseV f ts2 with
          | none => none
          | some (x, rest) =>
              match rest with
              | .cm :: r2 =>
                  match parseFields f r2 with
                  | some (l, r) => some (.ocons k x l, r)
                  | none => none
              | .rb :: r2 => some (.ocons k x .onil, r2)
              | _ => none
      | _ => none

end

/-- `JSON.parse`: lex, then parse one value that must consume every token
(`none` models the builtin throwing a `SyntaxError`). -/
def jsonParse (cs : Str) : Option Json :=
  match tokenize cs with
  | none => none
  | some ts =>
      match parseV (2 * ts.length + 1) ts with
      | some (v, []) => some v
      | _ => none

/-! ### Association-list maps (JS `Map` with insertion order, and the file map) -/

/-- Lookup (`Map.prototype.get`, `undefined` for a missing key). -/
def mapGet {β : Type} : List (Str × β) → Str → Option β
  | [], _ => none
  | (k', v) :: t, k => if k' = k then some v else mapGet t k

/-- `Map.prototype.has`. -/
def mapHas {β : Type} (m : List (Str × β)) (k : Str) : Bool :=
  (mapGet m k).isSome

/-- `Map.prototype.set`: update in place if the key exists, else append. -/
def mapSet {β : Type} : List (Str × β) → Str → β → List (Str × β)
  | [], k, v => [(k, v)]
  | (k', v') :: t, k, v =>
      if k' = k then (k, v) :: t else (k', v') :: mapSet t k v

/-- Entry removal (`Map.prototype.delete` / deleting a file map entry). -/
def mapDel {β : Type} : List (Str × β) → Str → List (Str × β)
  | [], _ => []
  | (k', v') :: t, k => if k' = k then t else (k', v') :: mapDel t k

/-! ### Filesystem model -/

/-- A filesystem: the set of existing directories and a map from file path to
UTF-8 content.  Paths are plain strings; no `.`/`..` normalization is applied,
matching the string-level behaviour the storage layer relies on. -/
structure FileSys where
  dirs : List Str
  files : List (Str × Str)
deriving Repr, DecidableEq

/-- `path.slice(0, path.lastIndexOf("/"))`: everything before the last slash
(JS yields `slice(0, -1)`, i.e. all but the last character, when no slash
occurs). -/
def parentOf (p : Str) : Str :=
  match p.reverse.dropWhile (fun c => !(c = '/' : Bool)) with
  | [] => p.dropLast
  | c :: t => if c = '/' then t.reverse else p.dropLast

/-- `FS.readFile` wrapped in `autoCatch`: the content on success, `none` on any
failure (missing file, permission error, ...). -/
def fsRead (fs : FileSys) (p : Str) : Option Str := mapGet fs.files p

/-- `FS.writeFile` wrapped in `autoCatch`: succeeds iff the parent directory
exists and the path is not itself a directory. -/
def fsWrite (fs : FileSys) (p content : Str) : FileSys × Bool :=
  if fs.dirs.contains (parentOf p) && !fs.dirs.contains p then
    (⟨fs.dirs, mapSet fs.files p content⟩, true)
  else (fs, false)

/-- `FS.mkdir` (non-recursive) wrapped in `autoCatch`: fails (`EEXIST`) if the
directory exists and (`ENOENT`) if its parent is missing; creates exactly one
level otherwise. -/
def fsMkdir (fs : FileSys) (p : Str) : FileSys × Bool :=
  if fs.dirs.contains (parentOf p) && !fs.dirs.contains p then
    (⟨p :: fs.dirs, fs.files⟩, true)
  else (fs, false)

/-- `FS.rm` wrapped in `autoCatch`: succeeds iff the file exists. -/
def fsRm (fs : FileSys) (p : Str) : FileSys × Bool :=
  if mapHas fs.files p then (⟨fs.dirs, mapDel fs.files p⟩, true)
  else (fs, false)

/-- `if (p.endsWith("/")) p.slice(0,-1)` helper for directory lookup. -/
def dropTrailSlash (p : Str) : Str :=
  if ['/'].isSuffixOf p then p.dropLast else p

/-- `FS.readdir(p, {withFileTypes: true})` wrapped in `autoCatch`: `none` if
the directory is missing, else the entries directly inside it as
`(name, isFile)` pairs — file entries first, then subdirectories. -/
def fsDirents (fs : FileSys) (p : Str) : Option (List (Str × Bool)) :=
  if fs.dirs.contains (dropTrailSlash p) then
    some ((fs.files.filterMap fun kv =>
        if p.isPrefixOf kv.1 then
          let rest := kv.1.drop p.length
          if !rest.isEmpty && !rest.contains '/' then some (rest, true) else none
        else none)
      ++ (fs.dirs.filterMap fun d =>
        if p.isPrefixOf d then
          let rest := d.drop p.length
          if !rest.isEmpty && !rest.contains '/' then some (rest, false) else none
        else none))
  else none

/-! ### CacheStorage -/

/-- `CacheStorage`: a JS `Map` from resolved location to payload. -/
structure CacheStorage where
  storage : List (Str × Json)

/-- `CacheStorage.has`. -/
def CacheStorage.has (c : CacheStorage) (id : Str) (o : StorageOptions) : Bool :=
  if o.noCache then false
  else mapHas c.storage (idPath id o.extension)

/-- `CacheStorage.get` (a JS `undefined`, i.e. a missing key, is `none`). -/
def CacheStorage.get (c : CacheStorage) (id : Str) (o : StorageOptions) : Option Json :=
  if o.noCache then none
  else mapGet c.storage (idPath id o.extension)

/-- `CacheStorage.set`: store, then report whether the key is present. -/
def CacheStorage.set (c : CacheStorage) (id : Str) (v : Json) (o : StorageOptions) :
    CacheStorage × Bool :=
  if o.noCache then (c, false)
  else
    let p := idPath id o.extension
    let m := mapSet c.storage p v
    (⟨m⟩, mapHas m p)

/-- `CacheStorage.del`: report whether the key was present, and remove it. -/
def CacheStorage.del (c : CacheStorage) (id : Str) (o : StorageOptions) :
    CacheStorage × Bool :=
  if o.noCache then (c, false)
  else
    let p := idPath id o.extension
    (⟨mapDel c.storage p⟩, mapHas c.storage p)

/-- `CacheStorage.list`: entries whose key starts with the resolved directory
location, in insertion order. -/
def CacheStorage.list (c : CacheStorage) (dir : Str) (o : StorageOptions) :
    List (Str × Json) :=
  if o.noCache then []
  else
    let p := dirPath dir
    c.storage.filter fun kv => p.isPrefixOf kv.1

/-! ### FileStorage -/

/-- `FileStorage.has`: a successful read of the resolved path. -/
def FileStorage.has (fs : FileSys) (id : Str) (o : StorageOptions) : Bool :=
  if o.noFile then false
  else (fsRead fs (idPath id o.extension)).isSome

/-- `FileStorage.get`: read then `JSON.parse` (or return the raw text for a
non-JSON extension).  The parse is NOT inside `autoCatch` in the source, so a
malformed-JSON read is an uncaught throw, modelled as `.error ()`; the raw-text
cast `content as unknown as T` is modelled as `Json.str content`. -/
def FileStorage.get (fs : FileSys) (id : Str) (o : StorageOptions) :
    Except Unit (Option Json) :=
  if o.noFile then .ok none
  else
    match fsRead fs (idPath id o.extension) with
    | none => .ok none
    | some content =>
        if rawExt o then .ok (some (.str content))
        else
          match jsonParse content with
          | some v => .ok (some v)
          | none => .error ()

/-- `FileStorage.set`: serialize, `mkdir` the immediate parent (result
discarded), then write; returns whether the write succeeded. -/
def FileStorage.set (fs : FileSys) (id : Str) (v : Json) (o : StorageOptions) :
    FileSys × Bool :=
  if o.noFile then (fs, false)
  else
    let p := idPath id o.extension
    let raw := if rawExt o then jsToString v else render v 0
    let fs1 := (fsMkdir fs (parentOf p)).1
    fsWrite fs1 p raw

/-- `FileStorage.del`: remove the resolved file. -/
def FileStorage.del (fs : FileSys) (id : Str) (o : StorageOptions) :
    FileSys × Bool :=
  if o.noFile then (fs, false)
  else fsRm fs (idPath id o.extension)

/-- The per-dirent loop body of `FileStorage.list`: keep regular files, read
each via `FileStorage.get` at `path + name` (the non-null assertion `!` in the
source is a type-level cast only, so an absent result is simply kept as
`none`). -/
def FileStorage.listGo (fs : FileSys) (p : Str) (o : StorageOptions) :
    List (Str × Bool) → Except Unit (List (Str × Option Json))
  | [] => .ok []
  | (name, isFile) :: t =>
      if isFile then do
        let v ← FileStorage.get fs (p ++ name) o
        let rest ← FileStorage.listGo fs p o t
        .ok ((p ++ name, v) :: rest)
      else FileStorage.listGo fs p o t

/-- `FileStorage.list`: enumerate the resolved directory, keep regular files,
fetch each through `FileStorage.get`. -/
def FileStorage.list (fs : FileSys) (dir : Str) (o : StorageOptions) :
    Except Unit (List (Str × Option Json)) :=
  if o.noFile then .ok []
  else
    let p := dirPath dir
    match fsDirents fs p with
    | none => .ok []
    | some ents => FileStorage.listGo fs p o ents

/-! ### DualStorage -/

/-- `DualStorage`: a private cache plus the filesystem. -/
structure DualStorage where
  cache : CacheStorage
  file : FileSys

/-- `DualStorage.has`: cache hit or file hit. -/
def DualStorage.has (st : DualStorage) (id : Str) (o : StorageOptions) : Bool :=
  st.cache.has id o || FileStorage.has st.file id o

/-- `DualStorage.get`: `cache.get(id, options) ?? file.get(id, options)` — the
nullish-coalescing operator falls through to the file both when the cache has
no entry (JS `undefined`) and when the cached value is JSON `null`. -/
def DualStorage.get (st : DualStorage) (id : Str) (o : StorageOptions) :
    Except Unit (Option Json) :=
  match st.cache.get id o with
  | none => FileStorage.get st.file id o
  | some .null => FileStorage.get st.file id o
  | some v => .ok (some v)

/-- `DualStorage.set`: cache write, then — only if it reported success — the
file write (`&&` short-circuit). -/
def DualStorage.set (st : DualStorage) (id : Str) (v : Json) (o : StorageOptions) :
    DualStorage × Bool :=
  let (c', r1) := st.cache.set id v o
  if r1 then
    let (f', r2) := FileStorage.set st.file id v o
    (⟨c', f'⟩, r2)
  else (⟨c', st.file⟩, false)

/-- `DualStorage.del`: cache delete, then — only if it succeeded — file
delete. -/
def DualStorage.del (st : DualStorage) (id : Str) (o : StorageOptions) :
    DualStorage × Bool :=
  let (c', r1) := st.cache.del id o
  if r1 then
    let (f', r2) := FileStorage.del st.file id o
    (⟨c', f'⟩, r2)
  else (⟨c', st.file⟩, false)

/-! ### Batch layer (`BaseStorage.setAll` / `delAll`) -/

/-- The loop `let result = true; for (x of list) result &&= await op(x)` shared
by `setAll`, `delAll`, `modifyAll`, ...: JS `&&=` evaluates its right-hand side
(and hence performs the operation) only while the accumulator is still
truthy. -/
def andFold {S A : Type} (op : S → A → S × Bool) : S → Bool → List A → S × Bool
  | s, r, [] => (s, r)
  | s, r, a :: t =>
      if r then
        let (s', b) := op s a
        andFold op s' b t
      else andFold op s r t

/-- `BaseStorage.setAll` instantiated at `FileStorage`. -/
def setAllFile (fs : FileSys) (l : List (Str × Json)) (o : StorageOptions) :
    FileSys × Bool :=
  andFold (fun s e => FileStorage.set s e.1 e.2 o) fs true l

/-- `BaseStorage.delAll` instantiated at `FileStorage`. -/
def delAllFile (fs : FileSys) (ids : List Str) (o : StorageOptions) :
    FileSys × Bool :=
  andFold (fun s i => FileStorage.del s i o) fs true ids

/-! ### `BaseStorage.ensure` -/

/-- Truthiness of a JS `Promise` object: `if (somePromise)` always takes the
then-branch, whatever the promise will resolve to. -/
def promiseTruthy {α : Type} (_ : α) : Bool := true

/-- `ensure` on `CacheStorage`: `CacheStorage.has` returns a plain boolean, so
the un-awaited `if (this.has(id, options))` happens to see the actual value. -/
def ensureCache (c : CacheStorage) (id : Str) (fb : Json) (o : StorageOptions) :
    CacheStorage × Option Json :=
  if c.has id o then (c, c.get id o)
  else
    let (c', _) := c.set id fb o
    (c', some fb)

/-- `ensure` on `FileStorage`: `FileStorage.has` returns a `Promise`, and the
source tests it without `await`, so the condition is the truthiness of the
promise object itself. -/
def ensureFile (fs : FileSys) (id : Str) (fb : Json) (o : StorageOptions) :
    FileSys × Except Unit (Option Json) :=
  if promiseTruthy (FileStorage.has fs id o) then (fs, FileStorage.get fs id o)
  else
    let (fs', _) := FileStorage.set fs id fb o
    (fs', .ok (some fb))

/-- `ensure` on `DualStorage`: `DualStorage.has` is `async`, hence also a
`Promise` at the un-awaited condition. -/
def ensureDual (st : DualStorage) (id : Str) (fb : Json) (o : StorageOptions) :
    DualStorage × Except Unit (Option Json) :=
  if promiseTruthy (st.has id o) then (st, st.get id o)
  else
    let (st', _) := st.set id fb o
    (st', .ok (some fb))

/-! ### `BaseStorage.expect` -/

/-- `expect` on `CacheStorage`: note the existence check is `this.has(id)` with
NO options argument, while the predicate's value is fetched with the options;
the predicate receives `(await this.get(id, options))!`, whose `!` is a
type-level cast, so it can observe an absent value (`none`). -/
def expectCache (c : CacheStorage) (id : Str) (p : Option Json → Bool)
    (o : StorageOptions) : Bool :=
  c.has id defaultOpts && p (c.get id o)

/-- `expect` on `FileStorage` (existence check with default options; `&&`
short-circuits, so `get` only runs when `has` succeeded). -/
def expectFile (fs : FileSys) (id : Str) (p : Option Json → Bool)
    (o : StorageOptions) : Except Unit Bool :=
  if FileStorage.has fs id defaultOpts then do
    let v ← FileStorage.get fs id o
    .ok (p v)
  else .ok false

/-- `expect` on `DualStorage`. -/
def expectDual (st : DualStorage) (id : Str) (p : Option Json → Bool)
    (o : StorageOptions) : Except Unit Bool :=
  if st.has id defaultOpts then do
    let v ← st.get id o
    .ok (p v)
  else .ok false

/-! ### Token-count measures (fuel bounds for the parser proofs) -/

mutual

def tsize : Json → Nat
  | .null => 1
  | .bool _ => 1
  | .num _ => 1
  | .str _ => 1
  | .arr l => tsizeL l + 2
  | .obj o => tsizeO o + 2

def tsizeL : JsonList → Nat
  | .nil => 0
  | .cons x t => tsize x + 1 + tsizeL t

def tsizeO : JsonObj → Nat
  | .onil => 0
  | .ocons _ v t => tsize v + 1 + tsizeO t

end

/-! ## Helper lemmas -/

theorem andFold_false {S A : Type} (op : S → A → S × Bool) (s : S) (l : List A) :
    andFold op s false l = (s, false) := by
  induction l with
  | nil => rfl
  | cons a t ih => simpa [andFold] using ih

theorem andFold_append {S A : Type} (op : S → A → S × Bool) (s : S) (r : Bool)
    (l1 l2 : List A) :
    andFold op s r (l1 ++ l2) =
      andFold op (andFold op s r l1).1 (andFold op s r l1).2 l2 := by
  induction l1 generalizing s r with
  | nil => rfl
  | cons a t ih =>
      by_cases hr : r
      · subst hr
        simp only [List.cons_append, andFold]
        exact ih _ _
      · simp only [Bool.not_eq_true] at hr
        subst hr
        show andFold op s false (a :: (t ++ l2)) =
          andFold op (andFold op s false (a :: t)).1 (andFold op s false (a :: t)).2 l2
        simp only [andFold_false, andFold, if_neg (Bool.false_ne_true)]

theorem mapGet_mapSet_self {β : Type} (m : List (Str × β)) (k : Str) (v : β) :
    mapGet (mapSet m k v) k = some v := by
  induction m with
  | nil => simp [mapSet, mapGet]
  | cons kv t ih =>
      by_cases h : kv.1 = k
      · simp [mapSet, mapGet, h]
      · simpa [mapSet, mapGet, h] using ih

theorem fsMkdir_files (fs : FileSys) (p : Str) : ((fsMkdir fs p).1).files = fs.files := by
  unfold fsMkdir
  split <;> rfl

theorem list_contains_iff (l : List Str) (a : Str) :
    l.contains a = true ↔ a ∈ l := by
  simp [List.contains_iff_exists_mem_beq]

/-! ## Claim C5 -/

/-- C5: for every identifier and value, `DualStorage.set` with `{noCache: true}`
leaves the cache map and the filesystem unmodified (the `&&` short-circuit
skips the file write even though `noFile` is unset) and returns `false`. -/
theorem c5_dual_set_noCache_frame (st : DualStorage) (id : Str) (v : Json) :
    DualStorage.set st id v ⟨none, true, false⟩ = (st, false) := by
  cases st with
  | mk c f => simp [DualStorage.set, CacheStorage.set]

/-! ## Claim C1 -/

/-- C1 (code evaluation at the failing input): on a fresh File store,
`ensure("x", 5)` neither writes the fallback nor returns it — the un-awaited
`this.has(...)` promise is truthy, so `ensure` always takes the
"already present" branch and returns the (absent) `get` result, leaving the
filesystem untouched. -/
theorem c1_ensureFile_fresh_no_write :
    ensureFile ⟨[".".toList, "./data".toList], []⟩ "x".toList (.num 5) defaultOpts
      = (⟨[".".toList, "./data".toList], []⟩, .ok none) := rfl

/-! ## Claim C3 -/

/-- C3 (counterexample): entry-location resolution is NOT idempotent —
re-resolving `./data/x.json` prepends the root again, yielding
`./data/./data/x.json`. -/
theorem c3_resolution_not_idempotent :
    idPath (idPath "x".toList none) none ≠ idPath "x".toList none := by decide

/-! ## Claim C4 -/

/-- C4 (counterexample): a malformed-JSON read is an uncaught throw of
`FileStorage.get` — `JSON.parse` is outside `autoCatch` in the source. -/
theorem c4_get_throws_on_malformed :
    FileStorage.get ⟨[".".toList, "./data".toList],
        [("./data/x.json".toList, "not json".toList)]⟩ "x".toList defaultOpts
      = .error () := rfl

/-! ## Claim C6 -/

/-- C6 (counterexample): with two missing parent-directory levels
(`./data/a/b` under an existing `./data`), `FileStorage.set` fails and
returns `false`: the non-recursive `mkdir` cannot create the chain. -/
theorem c6_set_two_missing_levels_fails :
    FileStorage.set ⟨[".".toList, "./data".toList], []⟩ "a/b/x".toList
        (.bool true) defaultOpts
      = (⟨[".".toList, "./data".toList], []⟩, false) := rfl

/-! ## Claim C9 -/

/-- C9 (code evaluation at the failing input): `FileStorage.list` pairs each
regular file with the result of re-resolving the already-resolved location
through `get`, which prefixes `./data/` a second time; the read therefore
misses the file and every listed value is absent instead of the parsed
content. -/
theorem c9_list_reads_wrong_path :
    FileStorage.list ⟨[".".toList, "./data".toList, "./data/d".toList],
        [("./data/d/f.json".toList, "5".toList)]⟩ "d".toList defaultOpts
      = .ok [("./data/d/f.json".toList, none)] := rfl

/-! ## Claim C2 -/

/-- C2 (counterexample): `setAll` aborts at the first failure — with a first
entry whose write fails (two missing directory levels) and a second entry that
would succeed, the second entry is never written (`get` on it stays absent),
contradicting the all-attempted contract. -/
theorem c2_setAll_aborts_after_failure :
    (setAllFile ⟨[".".toList, "./data".toList], []⟩
        [("a/b/x".toList, .bool true), ("y".toList, .bool true)] defaultOpts).2 = false
    ∧ FileStorage.get (setAllFile ⟨[".".toList, "./data".toList], []⟩
        [("a/b/x".toList, .bool true), ("y".toList, .bool true)] defaultOpts).1
        "y".toList defaultOpts = .ok none :=
  ⟨rfl, rfl⟩

/-- C2 (amended): `setAll` and `delAll` evaluate per-entry operations in input
order only while every previous result was `true`; after the first failing
entry the remaining entries are not attempted (the JS `&&=` accumulator
short-circuits the call) and the aggregate result is `false`. -/
theorem c2_batch_short_circuit :
    (∀ (fs fs1 fs2 : FileSys) (l1 : List (Str × Json)) (x : Str × Json)
        (l2 : List (Str × Json)) (o : StorageOptions),
      setAllFile fs l1 o = (fs1, true) →
      FileStorage.set fs1 x.1 x.2 o = (fs2, false) →
      setAllFile fs (l1 ++ x :: l2) o = (fs2, false))
    ∧ (∀ (fs fs1 fs2 : FileSys) (l1 : List Str) (x : Str) (l2 : List Str)
        (o : StorageOptions),
      delAllFile fs l1 o = (fs1, true) →
      FileStorage.del fs1 x o = (fs2, false) →
      delAllFile fs (l1 ++ x :: l2) o = (fs2, false)) := by
  constructor
  · intro fs fs1 fs2 l1 x l2 o h1 h2
    unfold setAllFile at h1 ⊢
    rw [andFold_append, h1]
    simp [andFold, h2, andFold_false]
  · intro fs fs1 fs2 l1 x l2 o h1 h2
    unfold delAllFile at h1 ⊢
    rw [andFold_append, h1]
    simp [andFold, h2, andFold_false]

/-- C2 witness: the short-circuit theorem applied at a concrete store — first
entry `a/b/x` fails, so the later entry `y` is skipped and the result is
`false`. -/
theorem c2_batch_short_circuit_witness :
    setAllFile ⟨[".".toList, "./data".toList], []⟩
        ([] ++ ("a/b/x".toList, Json.bool true) :: [("y".toList, Json.bool true)])
        defaultOpts
      = (⟨[".".toList, "./data".toList], []⟩, false) :=
  c2_batch_short_circuit.1 _ _ _ [] ("a/b/x".toList, Json.bool true)
    [("y".toList, Json.bool true)] defaultOpts rfl rfl

theorem normSlashes_no_bs (s : Str) : ∀ c ∈ normSlashes s, c ≠ '\\' := by
  intro c hc
  unfold normSlashes at hc
  obtain ⟨a, _, ha⟩ := List.mem_map.mp hc
  by_cases h : a = '\\'
  · rw [if_pos h] at ha
    subst ha
    decide
  · rw [if_neg h] at ha
    subst ha
    exact h

theorem normSlashes_eq_self (s : Str) (h : ∀ c ∈ s, c ≠ '\\') :
    normSlashes s = s := by
  unfold normSlashes
  induction s with
  | nil => rfl
  | cons c t ih =>
      simp only [List.map_cons, if_neg (h c (List.mem_cons_self c t))]
      rw [ih]
      intro a ha
      exact h a (List.mem_cons_of_mem c ha)

theorem dropLeadSlash_sublist (s : Str) : ∀ c ∈ dropLeadSlash s, c ∈ s := by
  intro c hc
  unfold dropLeadSlash at hc
  match s with
  | [] => exact hc
  | a :: t =>
      by_cases h : a = '/'
      · simp only [if_pos h] at hc
        exact List.mem_cons_of_mem a hc
      · simpa [if_neg h] using hc

theorem idPath_shape (id : Str) (e : Str) :
    ∃ X, idPath id (some e) = rootPath ++ X ∧
      (∀ c ∈ X, c = '/' ∨ c ∈ dropLeadSlash (normSlashes id) ∨ c = '.' ∨ c ∈ e) := by
  unfold idPath
  simp only [Option.getD_some]
  split
  · refine ⟨_, rfl, ?_⟩
    intro c hc
    rcases List.mem_cons.mp hc with h | h
    · exact Or.inl h
    · exact Or.inr (Or.inl h)
  · refine ⟨'/' :: dropLeadSlash (normSlashes id) ++ '.' :: e, ?_, ?_⟩
    · rw [← List.append_assoc]
    · intro c hc
      rcases List.mem_append.mp hc with h | h
      · rcases List.mem_cons.mp h with h | h
        · exact Or.inl h
        · exact Or.inr (Or.inl h)
      · rcases List.mem_cons.mp h with h | h
        · exact Or.inr (Or.inr (Or.inl h))
        · exact Or.inr (Or.inr (Or.inr h))

theorem idPath_no_bs (id : Str) (e : Str) (h : '\\' ∉ e) :
    ∀ c ∈ idPath id (some e), c ≠ '\\' := by
  obtain ⟨X, hX, hmem⟩ := idPath_shape id e
  intro c hc
  rw [hX] at hc
  rcases List.mem_append.mp hc with hr | hx
  · have hroot : rootPath = ['.', '/', 'd', 'a', 't', 'a'] := rfl
    rw [hroot] at hr
    simp only [List.mem_cons, List.not_mem_nil, or_false] at hr
    rcases hr with rfl | rfl | rfl | rfl | rfl | rfl <;> decide
  · rcases hmem c hx with h' | h' | h' | h'
    · subst h'; decide
    · have := dropLeadSlash_sublist (normSlashes id) c h'
      exact normSlashes_no_bs id c this
    · subst h'; decide
    · intro hcontra
      subst hcontra
      exact h h'

theorem idPath_suffix (id : Str) (e : Str) : e <:+ idPath id (some e) := by
  unfold idPath
  simp only [Option.getD_some]
  split
  · rename_i hsuf
    have h1 : e <:+ dropLeadSlash (normSlashes id) := List.isSuffixOf_iff_suffix.mp hsuf
    have h2 : dropLeadSlash (normSlashes id) <:+
        rootPath ++ '/' :: dropLeadSlash (normSlashes id) := by
      rw [List.append_cons]
      exact List.suffix_append _ _
    exact h1.trans h2
  · rw [List.append_cons _ '.' e]
    exact List.suffix_append _ _

theorem idPath_cons_dot (id e : Str) : ∃ Y, idPath id (some e) = '.' :: Y := by
  obtain ⟨X, hX, _⟩ := idPath_shape id e
  refine ⟨"/data".toList ++ X, ?_⟩
  rw [hX]
  rfl

/-! ## Claim C3 (amended) -/

/-- C3 (amended): resolution is not idempotent; instead, re-resolving an
already-resolved entry location prepends the root path a second time:
for every identifier and every backslash-free extension,
`resolve(resolve(id,e), e) = "./data/" ++ resolve(id,e)`. -/
theorem c3_reresolve_prepends_root (id e : Str) (h : '\\' ∉ e) :
    idPath (idPath id (some e)) (some e) = rootPath ++ '/' :: idPath id (some e) := by
  have hnorm : normSlashes (idPath id (some e)) = idPath id (some e) :=
    normSlashes_eq_self _ (idPath_no_bs id e h)
  have hdls : dropLeadSlash (idPath id (some e)) = idPath id (some e) := by
    obtain ⟨Y, hY⟩ := idPath_cons_dot id e
    rw [hY]
    simp [dropLeadSlash]
  have hsuf : e.isSuffixOf (idPath id (some e)) = true :=
    List.isSuffixOf_iff_suffix.mpr (idPath_suffix id e)
  conv_lhs => rw [idPath]
  simp only [Option.getD_some]
  rw [hnorm, hdls, if_pos hsuf]

/-- C3 witness: the amended statement at `id = "x"`, `e = "json"` — the
re-resolved location is `./data/` prefixed onto `./data/x.json`. -/
theorem c3_reresolve_prepends_root_witness :
    idPath (idPath "x".toList (some "json".toList)) (some "json".toList)
      = rootPath ++ '/' :: idPath "x".toList (some "json".toList) :=
  c3_reresolve_prepends_root "x".toList "json".toList (by decide)

theorem parentOf_length_lt (p : Str) (hp : p ≠ []) :
    (parentOf p).length < p.length := by
  have hdl : p.dropLast.length < p.length := by
    rw [List.length_dropLast]
    cases p with
    | nil => exact absurd rfl hp
    | cons a t => simp
  unfold parentOf
  cases hdw : p.reverse.dropWhile (fun c => !(c = '/' : Bool)) with
  | nil => exact hdl
  | cons c t =>
      show (if c = '/' then t.reverse else p.dropLast).length < p.length
      by_cases hc : c = '/'
      · rw [if_pos hc]
        have h1 : (c :: t).length ≤ p.reverse.length := by
          rw [← hdw]
          exact (List.dropWhile_suffix _).length_le
        simp only [List.length_cons, List.length_reverse] at h1 ⊢
        omega
      · rw [if_neg hc]
        exact hdl

theorem parentOf_ne_self (p : Str) (hp : p ≠ []) : parentOf p ≠ p := by
  intro h
  have := parentOf_length_lt p hp
  rw [h] at this
  omega

theorem idPath_ne_nil (id : Str) (ext : Option Str) : idPath id ext ≠ [] := by
  cases ext with
  | none =>
      have h : idPath id none = idPath id (some "json".toList) := rfl
      rw [h]
      obtain ⟨Y, hY⟩ := idPath_cons_dot id "json".toList
      rw [hY]
      exact List.cons_ne_nil _ _
  | some e =>
      obtain ⟨Y, hY⟩ := idPath_cons_dot id e
      rw [hY]
      exact List.cons_ne_nil _ _

/-! ## Claim C6 (amended) -/

/-- C6 (amended): `FileStorage.set` creates only the immediate parent of the
resolved location (the `mkdir` is non-recursive) — so whenever at most one
level of the parent chain is missing (the parent already exists, or it is
missing but its own parent exists) and the resolved path is not itself a
directory, the write succeeds, `set` returns `true`, and the serialized
payload is stored at the resolved location.  (With two or more missing levels
the write fails and `set` returns `false`.) -/
theorem c6_set_single_missing_level (fs : FileSys) (id : Str) (v : Json)
    (o : StorageOptions) (hnf : o.noFile = false)
    (hnotdir : idPath id o.extension ∉ fs.dirs)
    (hpar : parentOf (idPath id o.extension) ∈ fs.dirs ∨
      (parentOf (idPath id o.extension) ∉ fs.dirs ∧
        parentOf (parentOf (idPath id o.extension)) ∈ fs.dirs)) :
    (FileStorage.set fs id v o).2 = true ∧
    mapGet (FileStorage.set fs id v o).1.files (idPath id o.extension)
      = some (if rawExt o then jsToString v else render v 0) := by
  have h3 : fs.dirs.contains (idPath id o.extension) = false := by
    cases hb : fs.dirs.contains (idPath id o.extension) with
    | false => rfl
    | true => exact absurd ((list_contains_iff _ _).mp hb) hnotdir
  unfold FileStorage.set
  rw [hnf]
  simp only [Bool.false_eq_true, if_false]
  rcases hpar with hin | ⟨hout, hgrand⟩
  · have h1 : fs.dirs.contains (parentOf (idPath id o.extension)) = true :=
      (list_contains_iff _ _).mpr hin
    have hmk : (fsMkdir fs (parentOf (idPath id o.extension))).1 = fs := by
      unfold fsMkdir
      simp only [h1, Bool.not_true, Bool.and_false, Bool.false_eq_true, if_false]
    rw [hmk]
    unfold fsWrite
    simp only [h1, h3, Bool.not_false, Bool.and_self, if_true]
    exact ⟨trivial, mapGet_mapSet_self _ _ _⟩
  · have h1 : fs.dirs.contains (parentOf (parentOf (idPath id o.extension))) = true :=
      (list_contains_iff _ _).mpr hgrand
    have h2 : fs.dirs.contains (parentOf (idPath id o.extension)) = false := by
      cases hb : fs.dirs.contains (parentOf (idPath id o.extension)) with
      | false => rfl
      | true => exact absurd ((list_contains_iff _ _).mp hb) hout
    have hmk : fsMkdir fs (parentOf (idPath id o.extension)) =
        (⟨parentOf (idPath id o.extension) :: fs.dirs, fs.files⟩, true) := by
      unfold fsMkdir
      simp only [h1, h2, Bool.not_false, Bool.and_self, if_true]
    rw [hmk]
    unfold fsWrite
    have ha : (parentOf (idPath id o.extension) :: fs.dirs).contains
        (parentOf (idPath id o.extension)) = true :=
      (list_contains_iff _ _).mpr (List.mem_cons_self _ _)
    have hb : (parentOf (idPath id o.extension) :: fs.dirs).contains
        (idPath id o.extension) = false := by
      cases hc : (parentOf (idPath id o.extension) :: fs.dirs).contains
          (idPath id o.extension) with
      | false => rfl
      | true =>
          rcases List.mem_cons.mp ((list_contains_iff _ _).mp hc) with h | h
          · exact absurd h.symm (parentOf_ne_self _ (idPath_ne_nil id o.extension))
          · exact absurd h hnotdir
    simp only [ha, hb, Bool.not_false, Bool.and_self, if_true]
    exact ⟨trivial, mapGet_mapSet_self _ _ _⟩

/-- C6 witness: on a store whose root `./data` exists but `./data/a` does not,
writing `a/x` creates the one missing parent level and succeeds, storing the
rendered payload at `./data/a/x.json`. -/
theorem c6_set_single_missing_level_witness :
    (FileStorage.set ⟨[".".toList, "./data".toList], []⟩ "a/x".toList
        (.bool true) defaultOpts).2 = true ∧
    mapGet (FileStorage.set ⟨[".".toList, "./data".toList], []⟩ "a/x".toList
        (.bool true) defaultOpts).1.files (idPath "a/x".toList none)
      = some (if rawExt defaultOpts then jsToString (.bool true)
          else render (.bool true) 0) :=
  c6_set_single_missing_level ⟨[".".toList, "./data".toList], []⟩ "a/x".toList
    (.bool true) defaultOpts rfl (by decide) (Or.inr (by decide))

/-! ## Claim C8 -/

/-- C8 (counterexample): after `Dual.set("x", true)` and then
`Dual.set("x", null, {noFile:true})` (which updates only the cache), the cache
holds `null` at the resolved location, yet `Dual.get` returns the file's value
`true` — the `??` operator skips a cached JSON `null`, so the claim "returns
the cache's stored value whenever the cache holds an entry" is false. -/
theorem c8_cached_null_skipped :
    ((DualStorage.set ((DualStorage.set ⟨⟨[]⟩, ⟨[".".toList, "./data".toList], []⟩⟩
        "x".toList (.bool true) defaultOpts).1) "x".toList .null
        ⟨none, false, true⟩).1).cache.get "x".toList defaultOpts = some .null
    ∧ DualStorage.get ((DualStorage.set ((DualStorage.set
        ⟨⟨[]⟩, ⟨[".".toList, "./data".toList], []⟩⟩ "x".toList (.bool true)
        defaultOpts).1) "x".toList .null ⟨none, false, true⟩).1) "x".toList
        defaultOpts = .ok (some (.bool true))
    ∧ (Except.ok (some (Json.bool true)) : Except Unit (Option Json))
        ≠ .ok (some .null) :=
  ⟨rfl, rfl, fun h => Json.noConfusion (Option.some.inj (Except.ok.inj h))⟩

/-- C8 (amended): `Dual.get` returns the cache's stored value whenever the
cache holds a NON-NULL entry at the resolved location; when the cache has no
entry — or the cached value is JSON `null`, which nullish-coalescing also
skips — it returns the File Backend's value; the call never modifies the
cache (`get` is read-only by construction). -/
theorem c8_dual_get_cache_first (st : DualStorage) (id : Str) (o : StorageOptions) :
    (∀ v : Json, st.cache.get id o = some v → v ≠ .null →
      DualStorage.get st id o = .ok (some v))
    ∧ (st.cache.get id o = none ∨ st.cache.get id o = some .null →
      DualStorage.get st id o = FileStorage.get st.file id o) := by
  constructor
  · intro v hv hne
    unfold DualStorage.get
    rw [hv]
    cases v <;> first | rfl | exact absurd rfl hne
  · intro h
    unfold DualStorage.get
    rcases h with h | h <;> rw [h]

/-- C8 witness: a dual store whose cache holds `true` at `./data/x.json`
serves that cached value. -/
theorem c8_dual_get_cache_first_witness :
    DualStorage.get ⟨⟨[("./data/x.json".toList, Json.bool true)]⟩, ⟨[], []⟩⟩
      "x".toList defaultOpts = .ok (some (.bool true)) :=
  (c8_dual_get_cache_first ⟨⟨[("./data/x.json".toList, Json.bool true)]⟩, ⟨[], []⟩⟩
    "x".toList defaultOpts).1 (.bool true) rfl (fun h => Json.noConfusion h)

/-! ## Claim C10 -/

/-- C10: `expect` checks existence via `has(id)` WITHOUT forwarding the options
record, while the predicate's value is fetched WITH the options — so the
options influence only the fetched value, never the existence decision: if
`has` under default options fails, `expect` is false for every options record;
if it succeeds, `expect` with `{noFile:true}` (File) or `{noCache:true}`
(Cache) still runs the predicate, on the then-absent value. -/
theorem c10_expect_ignores_options (fs : FileSys) (c : CacheStorage)
    (st : DualStorage) (id : Str) (p : Option Json → Bool) (o : StorageOptions) :
    (FileStorage.has fs id defaultOpts = false → expectFile fs id p o = .ok false)
    ∧ (FileStorage.has fs id defaultOpts = true →
        expectFile fs id p ⟨o.extension, o.noCache, true⟩ = .ok (p none))
    ∧ (∀ w, FileStorage.has fs id defaultOpts = true →
        FileStorage.get fs id o = .ok w → expectFile fs id p o = .ok (p w))
    ∧ (CacheStorage.has c id defaultOpts = true →
        expectCache c id p ⟨o.extension, true, o.noFile⟩ = p none)
    ∧ (DualStorage.has st id defaultOpts = false →
        expectDual st id p o = .ok false) := by
  refine ⟨?_, ?_, ?_, ?_, ?_⟩
  · intro h
    simp only [expectFile, h, Bool.false_eq_true, if_false]
  · intro h
    simp only [expectFile, h, if_true, FileStorage.get]
    rfl
  · intro w h hget
    simp only [expectFile, h, if_true, hget]
    rfl
  · intro h
    simp only [expectCache, h, CacheStorage.get, if_true, Bool.true_and]
  · intro h
    simp only [expectDual, h, Bool.false_eq_true, if_false]

/-- C10 witness: with a file present at `./data/x.json`, `expect` under
`{noFile:true}` still reports existence and hands the predicate the absent
value (`Option.isNone` yields `true`). -/
theorem c10_expect_ignores_options_witness :
    expectFile ⟨[], [("./data/x.json".toList, "true".toList)]⟩ "x".toList
      (fun v => v.isNone) ⟨none, false, true⟩ = .ok true :=
  (c10_expect_ignores_options ⟨[], [("./data/x.json".toList, "true".toList)]⟩
    ⟨[]⟩ ⟨⟨[]⟩, ⟨[], []⟩⟩ "x".toList (fun v => v.isNone) defaultOpts).2.1 rfl

/-! ## Claim C4 (amended) -/

/-- C4 (amended): `has`, `set` and `del` convert every I/O failure to a
negative result, `list`'s own enumeration failure yields the empty list, and
`get` returns absent on any READ failure — but a JSON-mode read that succeeds
with content `JSON.parse` rejects propagates as an uncaught exception (the
parse is outside `autoCatch`): `get` throws exactly when the read succeeds in
JSON mode and the content is malformed. -/
theorem c4_get_error_iff_malformed (fs : FileSys) (id dir : Str)
    (o : StorageOptions) :
    (o.noFile = false → fsRead fs (idPath id o.extension) = none →
      FileStorage.get fs id o = .ok none)
    ∧ (FileStorage.get fs id o = .error () ↔
      (o.noFile = false ∧ rawExt o = false ∧
        ∃ content, fsRead fs (idPath id o.extension) = some content ∧
          jsonParse content = none))
    ∧ (o.noFile = false → fsDirents fs (dirPath dir) = none →
      FileStorage.list fs dir o = .ok []) := by
  refine ⟨?_, ⟨?_, ?_⟩, ?_⟩
  · intro hnf hread
    simp only [FileStorage.get, hnf, Bool.false_eq_true, if_false, hread]
  · intro h
    unfold FileStorage.get at h
    by_cases hnf : o.noFile = true
    · rw [if_pos hnf] at h
      exact Except.noConfusion h
    · rw [if_neg hnf] at h
      cases hr : fsRead fs (idPath id o.extension) with
      | none =>
          rw [hr] at h
          exact Except.noConfusion h
      | some content =>
          rw [hr] at h
          dsimp only at h
          by_cases hraw : rawExt o = true
          · rw [if_pos hraw] at h
            exact Except.noConfusion h
          · rw [if_neg hraw] at h
            cases hp : jsonParse content with
            | some v =>
                rw [hp] at h
                exact Except.noConfusion h
            | none =>
                exact ⟨by simpa using hnf, by simpa using hraw, content, rfl, hp⟩
  · rintro ⟨hnf, hraw, content, hr, hp⟩
    simp only [FileStorage.get, hnf, Bool.false_eq_true, if_false, hr, hraw, hp]
  · intro hnf hents
    simp only [FileStorage.list, hnf, Bool.false_eq_true, if_false, hents]

/-- C4 witness: on an empty filesystem the read fails and `get` returns
absent rather than throwing. -/
theorem c4_get_error_iff_malformed_witness :
    FileStorage.get ⟨[], []⟩ "x".toList defaultOpts = .ok none :=
  (c4_get_error_iff_malformed ⟨[], []⟩ "x".toList "d".toList defaultOpts).1 rfl rfl

/-! ## Lexer correctness on rendered output -/

theorem step_flush (s : LexSt) (ts : List Tok) (c : Char)
    (hf : flushEnd s = some ts) (hd : c.isDigit = false) (ha : c.isAlpha = false) :
    step s c = stepNorm ts c := by
  cases s with
  | mk toks mode =>
      cases mode with
      | norm =>
          simp only [flushEnd] at hf
          cases hf
          rfl
      | innum neg hasD acc =>
          simp only [flushEnd] at hf
          cases hn : numTok neg hasD acc with
          | none =>
              rw [hn] at hf
              exact Option.noConfusion hf
          | some t =>
              rw [hn] at hf
              simp only [Option.map_some'] at hf
              cases hf
              simp only [step, hd, Bool.false_eq_true, if_false, hn]
      | inword acc =>
          simp only [flushEnd] at hf
          cases hw : wordTok acc.reverse with
          | none =>
              rw [hw] at hf
              exact Option.noConfusion hf
          | some t =>
              rw [hw] at hf
              simp only [Option.map_some'] at hf
              cases hf
              simp only [step, ha, Bool.false_eq_true, if_false, hw]
      | instr acc e =>
          simp only [flushEnd] at hf
          exact Option.noConfusion hf
      | lfail =>
          simp only [flushEnd] at hf
          exact Option.noConfusion hf

theorem lex_ws (cs : Str) (h : ∀ c ∈ cs, isWsC c = true) (ts : List Tok) :
    List.foldl step ⟨ts, .norm⟩ cs = ⟨ts, .norm⟩ := by
  induction cs with
  | nil => rfl
  | cons c t ih =>
      have hc := h c (List.mem_cons_self _ _)
      have hstep : step ⟨ts, .norm⟩ c = ⟨ts, .norm⟩ := by
        simp [step, stepNorm, hc]
      rw [List.foldl_cons, hstep]
      exact ih (fun a ha => h a (List.mem_cons_of_mem _ ha))

theorem lex_indent (d : Nat) (ts : List Tok) :
    List.foldl step ⟨ts, .norm⟩ (indent d) = ⟨ts, .norm⟩ := by
  apply lex_ws
  intro c hc
  rw [List.eq_of_mem_replicate hc]
  decide

theorem step_innum_digit (ts : List Tok) (neg hasD : Bool) (a m : Nat)
    (hm : m < 10) :
    step ⟨ts, .innum neg hasD a⟩ (Nat.digitChar m)
      = ⟨ts, .innum neg true (a * 10 + m)⟩ := by
  interval_cases m <;> rfl

theorem lex_natChars (n : Nat) (ts : List Tok) :
    List.foldl step ⟨ts, .norm⟩ (natChars n) = ⟨ts, .innum false true n⟩ := by
  induction n using Nat.strong_induction_on with
  | _ n ih =>
      by_cases h : n < 10
      · rw [natChars, if_pos h]
        interval_cases n <;> rfl
      · rw [natChars, if_neg h]
        rw [List.foldl_append, ih (n / 10) (Nat.div_lt_self (by omega) (by omega))]
        rw [List.foldl_cons, List.foldl_nil,
          step_innum_digit ts false true (n / 10) (n % 10) (Nat.mod_lt _ (by omega))]
        congr 1
        congr 1
        omega

theorem lex_natChars_neg (n : Nat) (ts : List Tok) :
    List.foldl step ⟨ts, .innum true false 0⟩ (natChars n)
      = ⟨ts, .innum true true n⟩ := by
  induction n using Nat.strong_induction_on with
  | _ n ih =>
      by_cases h : n < 10
      · rw [natChars, if_pos h]
        rw [List.foldl_cons, List.foldl_nil,
          step_innum_digit ts true false 0 n h]
        congr 2
        omega
      · rw [natChars, if_neg h]
        rw [List.foldl_append, ih (n / 10) (Nat.div_lt_self (by omega) (by omega))]
        rw [List.foldl_cons, List.foldl_nil,
          step_innum_digit ts true true (n / 10) (n % 10) (Nat.mod_lt _ (by omega))]
        congr 1
        congr 1
        omega

theorem step_instr_bs (ts : List Tok) (acc : Str) :
    step ⟨ts, .instr acc false⟩ '\\' = ⟨ts, .instr acc true⟩ := rfl

theorem step_instr_close (ts : List Tok) (acc : Str) :
    step ⟨ts, .instr acc false⟩ '"' = ⟨.tstr acc.reverse :: ts, .norm⟩ := rfl

theorem step_instr_code (ts : List Tok) (acc : Str) (c c' : Char)
    (h : unescC c = some c') :
    step ⟨ts, .instr acc true⟩ c = ⟨ts, .instr (c' :: acc) false⟩ := by
  simp [step, h]

theorem step_instr_plain (ts : List Tok) (acc : Str) (c : Char)
    (h1 : ¬c = '\\') (h2 : ¬c = '"') :
    step ⟨ts, .instr acc false⟩ c = ⟨ts, .instr (c :: acc) false⟩ := by
  simp only [step, if_neg h1, if_neg h2, Bool.false_eq_true, if_false]

theorem lex_esc (s : Str) : ∀ (acc : Str) (ts : List Tok),
    List.foldl step ⟨ts, .instr acc false⟩ (esc s ++ ['"'])
      = ⟨.tstr (acc.reverse ++ s) :: ts, .norm⟩ := by
  induction s with
  | nil =>
      intro acc ts
      simp only [esc, List.nil_append, List.foldl_cons, List.foldl_nil,
        step_instr_close, List.append_nil]
  | cons c cs ih =>
      intro acc ts
      have hmain : ∀ c' : Char, unescC c' = some c →
          List.foldl step ⟨ts, .instr acc false⟩ (('\\' :: [c']) ++ esc cs ++ ['"'])
            = ⟨.tstr (acc.reverse ++ c :: cs) :: ts, .norm⟩ := by
        intro c' hc'
        simp only [List.cons_append, List.singleton_append, List.nil_append]
        rw [List.foldl_cons, List.foldl_cons, step_instr_bs,
          step_instr_code ts acc c' c hc', ih]
        simp
      by_cases h1 : c = '"'
      · subst h1
        have he : esc ('"' :: cs) = ('\\' :: ['"']) ++ esc cs := by
          simp [esc, escC]
        rw [he, List.append_assoc]
        exact hmain '"' (by decide)
      · by_cases h2 : c = '\\'
        · subst h2
          have he : esc ('\\' :: cs) = ('\\' :: ['\\']) ++ esc cs := by
            simp [esc, escC]
          rw [he, List.append_assoc]
          exact hmain '\\' (by decide)
        · by_cases h3 : c = '\n'
          · subst h3
            have he : esc ('\n' :: cs) = ('\\' :: ['n']) ++ esc cs := by
              simp [esc, escC]
            rw [he, List.append_assoc]
            exact hmain 'n' (by decide)
          · by_cases h4 : c = '\t'
            · subst h4
              have he : esc ('\t' :: cs) = ('\\' :: ['t']) ++ esc cs := by
                simp [esc, escC]
              rw [he, List.append_assoc]
              exact hmain 't' (by decide)
            · by_cases h5 : c = '\r'
              · subst h5
                have he : esc ('\r' :: cs) = ('\\' :: ['r']) ++ esc cs := by
                  simp [esc, escC]
                rw [he, List.append_assoc]
                exact hmain 'r' (by decide)
              · have he : esc (c :: cs) = c :: esc cs := by
                  simp [esc, escC, h1, h2, h3, h4, h5]
                rw [he, List.cons_append, List.foldl_cons,
                  step_instr_plain ts acc c h2 h1, ih]
                simp

theorem lex_renderS (s : Str) (ts : List Tok) :
    List.foldl step ⟨ts, .norm⟩ (renderS s) = ⟨.tstr s :: ts, .norm⟩ := by
  have h0 : step ⟨ts, .norm⟩ '"' = ⟨ts, .instr [] false⟩ := rfl
  rw [renderS, List.cons_append, List.foldl_cons, h0, lex_esc s [] ts]
  rfl

theorem step_norm_lk (ts : List Tok) : step ⟨ts, .norm⟩ '[' = ⟨.lk :: ts, .norm⟩ := rfl

theorem step_norm_rk (ts : List Tok) : step ⟨ts, .norm⟩ ']' = ⟨.rk :: ts, .norm⟩ := rfl

theorem step_norm_lb (ts : List Tok) : step ⟨ts, .norm⟩ '{' = ⟨.lb :: ts, .norm⟩ := rfl

theorem step_norm_rb (ts : List Tok) : step ⟨ts, .norm⟩ '}' = ⟨.rb :: ts, .norm⟩ := rfl

theorem step_norm_nl (ts : List Tok) : step ⟨ts, .norm⟩ '\n' = ⟨ts, .norm⟩ := rfl

theorem step_norm_sp (ts : List Tok) : step ⟨ts, .norm⟩ ' ' = ⟨ts, .norm⟩ := rfl

theorem flushEnd_norm (ts : List Tok) : flushEnd ⟨ts, .norm⟩ = some ts := rfl

theorem stepNorm_nl (ts : List Tok) : stepNorm ts '\n' = ⟨ts, .norm⟩ := rfl

theorem stepNorm_cm (ts : List Tok) : stepNorm ts ',' = ⟨.cm :: ts, .norm⟩ := rfl

theorem lex_val_break (cs : Str) (ts E : List Tok) (c : Char) (rest : Str)
    (h : flushEnd (List.foldl step ⟨ts, .norm⟩ cs) = some E)
    (hd : c.isDigit = false) (ha : c.isAlpha = false) :
    List.foldl step ⟨ts, .norm⟩ (cs ++ c :: rest)
      = List.foldl step (stepNorm E c) rest := by
  rw [List.foldl_append, List.foldl_cons, step_flush _ _ _ h hd ha]

mutual

theorem lex_render (v : Json) : ∀ (d : Nat) (ts : List Tok),
    flushEnd (List.foldl step ⟨ts, .norm⟩ (render v d))
      = some ((emit v).reverse ++ ts) := by
  cases v with
  | null => intro d ts; rfl
  | bool b => cases b <;> (intro d ts; rfl)
  | num n =>
      intro d ts
      simp only [render, intRender]
      by_cases h : n < 0
      · rw [if_pos h, List.foldl_cons]
        have h0 : step ⟨ts, .norm⟩ '-' = ⟨ts, .innum true false 0⟩ := rfl
        rw [h0, lex_natChars_neg]
        have h1 : flushEnd ⟨ts, .innum true true n.natAbs⟩
            = some (.tnum (-(n.natAbs : Int)) :: ts) := rfl
        rw [h1]
        have h2 : (-(n.natAbs : Int)) = n := by omega
        rw [h2]
        rfl
      · rw [if_neg h, lex_natChars]
        have h1 : flushEnd ⟨ts, .innum false true n.natAbs⟩
            = some (.tnum (n.natAbs : Int) :: ts) := rfl
        rw [h1]
        have h2 : ((n.natAbs : Int)) = n := by omega
        rw [h2]
        rfl
  | str s =>
      intro d ts
      simp only [render]
      rw [lex_renderS]
      rfl
  | arr l =>
      cases l with
      | nil => intro d ts; rfl
      | cons x t =>
          intro d ts
          simp only [render, List.cons_append, List.append_assoc]
          rw [List.foldl_cons, step_norm_lk, List.foldl_cons, step_norm_nl]
          rw [lex_val_break _ _ _ '\n' _
            (lex_renderItems (.cons x t) (by intro hc; exact JsonList.noConfusion hc)
              (d + 1) (.lk :: ts)) (by decide) (by decide)]
          rw [stepNorm_nl, List.foldl_append, lex_indent, List.foldl_cons,
            step_norm_rk, List.foldl_nil, flushEnd_norm]
          simp only [emit, List.reverse_cons, List.reverse_append,
            List.reverse_nil, List.append_assoc, List.cons_append,
            List.nil_append, List.singleton_append]
  | obj o =>
      cases o with
      | onil => intro d ts; rfl
      | ocons k v t =>
          intro d ts
          simp only [render, List.cons_append, List.append_assoc]
          rw [List.foldl_cons, step_norm_lb, List.foldl_cons, step_norm_nl]
          rw [lex_val_break _ _ _ '\n' _
            (lex_renderFields (.ocons k v t)
              (by intro hc; exact JsonObj.noConfusion hc) (d + 1) (.lb :: ts))
            (by decide) (by decide)]
          rw [stepNorm_nl, List.foldl_append, lex_indent, List.foldl_cons,
            step_norm_rb, List.foldl_nil, flushEnd_norm]
          simp only [emit, List.reverse_cons, List.reverse_append,
            List.reverse_nil, List.append_assoc, List.cons_append,
            List.nil_append, List.singleton_append]

theorem lex_renderItems (l : JsonList) (hne : l ≠ .nil) :
    ∀ (d : Nat) (ts : List Tok),
    flushEnd (List.foldl step ⟨ts, .norm⟩ (renderItems l d))
      = some ((emitItems l).reverse ++ ts) := by
  cases l with
  | nil => exact absurd rfl hne
  | cons x t =>
      cases t with
      | nil =>
          intro d ts
          simp only [renderItems, emitItems]
          rw [List.foldl_append, lex_indent]
          exact lex_render x d ts
      | cons y t2 =>
          intro d ts
          simp only [renderItems, emitItems, List.cons_append, List.append_assoc]
          rw [List.foldl_append, lex_indent]
          rw [lex_val_break _ _ _ ',' _ (lex_render x d ts) (by decide) (by decide)]
          rw [stepNorm_cm, List.foldl_cons, step_norm_nl]
          rw [lex_renderItems (.cons y t2)
            (by intro hc; exact JsonList.noConfusion hc) d _]
          simp only [List.reverse_append, List.reverse_cons, List.append_assoc,
            List.cons_append, List.nil_append, List.singleton_append]

theorem lex_renderFields (o : JsonObj) (hne : o ≠ .onil) :
    ∀ (d : Nat) (ts : List Tok),
    flushEnd (List.foldl step ⟨ts, .norm⟩ (renderFields o d))
      = some ((emitFields o).reverse ++ ts) := by
  cases o with
  | onil => exact absurd rfl hne
  | ocons k v t =>
      cases t with
      | onil =>
          intro d ts
          simp only [renderFields, emitFields, List.cons_append, List.append_assoc]
          rw [List.foldl_append, lex_indent, List.foldl_append, lex_renderS,
            List.foldl_cons, List.foldl_cons]
          have h1 : step ⟨.tstr k :: ts, .norm⟩ ':' = ⟨.cl :: .tstr k :: ts, .norm⟩ := rfl
          have h2 : step ⟨.cl :: .tstr k :: ts, .norm⟩ ' '
              = ⟨.cl :: .tstr k :: ts, .norm⟩ := rfl
          rw [h1, h2, lex_render v d (.cl :: .tstr k :: ts)]
          simp only [List.reverse_append, List.reverse_cons, List.append_assoc,
            List.cons_append, List.nil_append, List.singleton_append]
      | ocons k2 v2 t2 =>
          intro d ts
          simp only [renderFields, emitFields, List.cons_append, List.append_assoc]
          rw [List.foldl_append, lex_indent, List.foldl_append, lex_renderS,
            List.foldl_cons, List.foldl_cons]
          have h1 : step ⟨.tstr k :: ts, .norm⟩ ':' = ⟨.cl :: .tstr k :: ts, .norm⟩ := rfl
          have h2 : step ⟨.cl :: .tstr k :: ts, .norm⟩ ' '
              = ⟨.cl :: .tstr k :: ts, .norm⟩ := rfl
          rw [h1, h2]
          rw [lex_val_break _ _ _ ',' _ (lex_render v d (.cl :: .tstr k :: ts))
            (by decide) (by decide)]
          rw [stepNorm_cm, List.foldl_cons, step_norm_nl]
          rw [lex_renderFields (.ocons k2 v2 t2)
            (by intro hc; exact JsonObj.noConfusion hc) d _]
          simp only [List.reverse_append, List.reverse_cons, List.append_assoc,
            List.cons_append, List.nil_append, List.singleton_append]

end

theorem tokenize_render (v : Json) : tokenize (render v 0) = some (emit v) := by
  unfold tokenize
  rw [lex_render v 0 []]
  simp

/-! ## Token-parser correctness on emitted streams -/

theorem tsize_pos (v : Json) : 1 ≤ tsize v := by
  cases v <;> simp [tsize]

theorem emit_starts (x : Json) : ∃ h tl, emit x = h :: tl ∧
    h ≠ Tok.rk ∧ h ≠ Tok.rb ∧ h ≠ Tok.cm ∧ h ≠ Tok.cl := by
  cases x with
  | null => exact ⟨_, _, rfl, by decide, by decide, by decide, by decide⟩
  | bool b =>
      refine ⟨.tbool b, [], rfl, ?_, ?_, ?_, ?_⟩ <;> (intro hc; exact Tok.noConfusion hc)
  | num n =>
      refine ⟨.tnum n, [], rfl, ?_, ?_, ?_, ?_⟩ <;> (intro hc; exact Tok.noConfusion hc)
  | str s =>
      refine ⟨.tstr s, [], rfl, ?_, ?_, ?_, ?_⟩ <;> (intro hc; exact Tok.noConfusion hc)
  | arr l =>
      cases l with
      | nil => exact ⟨_, _, rfl, by decide, by decide, by decide, by decide⟩
      | cons x t =>
          refine ⟨.lk, emitItems (.cons x t) ++ [.rk], ?_, by decide, by decide,
            by decide, by decide⟩
          simp [emit]
  | obj o =>
      cases o with
      | onil => exact ⟨_, _, rfl, by decide, by decide, by decide, by decide⟩
      | ocons k v t =>
          refine ⟨.lb, emitFields (.ocons k v t) ++ [.rb], ?_, by decide, by decide,
            by decide, by decide⟩
          simp [emit]

theorem emitItems_starts (l : JsonList) (hne : l ≠ .nil) : ∃ h tl,
    emitItems l = h :: tl ∧ h ≠ Tok.rk ∧ h ≠ Tok.rb ∧ h ≠ Tok.cm ∧ h ≠ Tok.cl := by
  cases l with
  | nil => exact absurd rfl hne
  | cons x t =>
      obtain ⟨h0, tl0, hx, h1, h2, h3, h4⟩ := emit_starts x
      cases t with
      | nil => exact ⟨h0, tl0, by simp [emitItems, hx], h1, h2, h3, h4⟩
      | cons y t2 =>
          exact ⟨h0, tl0 ++ .cm :: emitItems (.cons y t2),
            by simp [emitItems, hx], h1, h2, h3, h4⟩

theorem emitFields_starts (k : Str) (v : Json) (t : JsonObj) :
    ∃ tl, emitFields (.ocons k v t) = .tstr k :: .cl :: tl := by
  cases t with
  | onil => exact ⟨_, rfl⟩
  | ocons k2 v2 t2 => exact ⟨_, rfl⟩

theorem parseV_lk (g : Nat) (ts : List Tok) (hne : ∀ ts', ts ≠ .rk :: ts') :
    parseV (g + 1) (.lk :: ts)
      = match parseItems g ts with
        | some (l, r) => some (.arr l, r)
        | none => none := by
  cases ts with
  | nil => simp [parseV, parseItems]
  | cons h0 tl =>
      cases h0 <;> first | (exact absurd rfl (hne tl)) | simp [parseV]

theorem parseV_lb (g : Nat) (ts : List Tok) (hne : ∀ ts', ts ≠ .rb :: ts') :
    parseV (g + 1) (.lb :: ts)
      = match parseFields g ts with
        | some (l, r) => some (.obj l, r)
        | none => none := by
  cases ts with
  | nil => simp [parseV, parseFields]
  | cons h0 tl =>
      cases h0 <;> first | (exact absurd rfl (hne tl)) | simp [parseV]

mutual

theorem parse_emit (v : Json) : ∀ (f : Nat) (rest : List Tok), tsize v < f →
    parseV f (emit v ++ rest) = some (v, rest) := by
  cases v with
  | null =>
      intro f rest h
      cases f with
      | zero => omega
      | succ g => simp [parseV, emit]
  | bool b =>
      intro f rest h
      cases f with
      | zero => omega
      | succ g => simp [parseV, emit]
  | num n =>
      intro f rest h
      cases f with
      | zero => omega
      | succ g => simp [parseV, emit]
  | str s =>
      intro f rest h
      cases f with
      | zero => omega
      | succ g => simp [parseV, emit]
  | arr l =>
      cases l with
      | nil =>
          intro f rest h
          cases f with
          | zero => omega
          | succ g => simp [parseV, emit]
      | cons x t =>
          intro f rest h
          cases f with
          | zero => omega
          | succ g =>
              have hstream : emit (.arr (.cons x t)) ++ rest
                  = .lk :: (emitItems (.cons x t) ++ .rk :: rest) := by
                simp [emit]
              rw [hstream]
              have hne2 : ∀ ts', emitItems (.cons x t) ++ .rk :: rest ≠ .rk :: ts' := by
                intro ts' hc
                obtain ⟨h0, tl, hemit, h1, _, _, _⟩ := emitItems_starts (.cons x t)
                  (by intro hc2; exact JsonList.noConfusion hc2)
                rw [hemit] at hc
                simp only [List.cons_append, List.cons.injEq] at hc
                exact h1 hc.1
              rw [parseV_lk g _ hne2]
              have hb : tsizeL (.cons x t) < g := by
                simp only [tsize] at h
                omega
              rw [parseItems_emit (.cons x t)
                (by intro hc; exact JsonList.noConfusion hc) g rest hb]
  | obj o =>
      cases o with
      | onil =>
          intro f rest h
          cases f with
          | zero => omega
          | succ g => simp [parseV, emit]
      | ocons k v t =>
          intro f rest h
          cases f with
          | zero => omega
          | succ g =>
              have hstream : emit (.obj (.ocons k v t)) ++ rest
                  = .lb :: (emitFields (.ocons k v t) ++ .rb :: rest) := by
                simp [emit]
              rw [hstream]
              have hne2 : ∀ ts', emitFields (.ocons k v t) ++ .rb :: rest ≠ .rb :: ts' := by
                intro ts' hc
                obtain ⟨tl, hemit⟩ := emitFields_starts k v t
                rw [hemit] at hc
                simp only [List.cons_append, List.cons.injEq] at hc
                exact Tok.noConfusion hc.1
              rw [parseV_lb g _ hne2]
              have hb : tsizeO (.ocons k v t) < g := by
                simp only [tsize] at h
                omega
              rw [parseFields_emit (.ocons k v t)
                (by intro hc; exact JsonObj.noConfusion hc) g rest hb]

theorem parseItems_emit (l : JsonList) (hne : l ≠ .nil) :
    ∀ (f : Nat) (rest : List Tok), tsizeL l < f →
    parseItems f (emitItems l ++ .rk :: rest) = some (l, rest) := by
  cases l with
  | nil => exact absurd rfl hne
  | cons x t =>
      intro f rest h
      cases f with
      | zero => omega
      | succ g =>
          cases t with
          | nil =>
              have hx : tsize x < g := by
                simp only [tsizeL] at h
                omega
              simp only [emitItems, parseItems]
              rw [parse_emit x g (.rk :: rest) hx]
          | cons y t2 =>
              have hx : tsize x < g := by
                simp only [tsizeL] at h
                omega
              have ht : tsizeL (.cons y t2) < g := by
                have hp := tsize_pos x
                simp only [tsizeL] at h ⊢
                omega
              simp only [emitItems, List.append_assoc, List.cons_append, parseItems]
              rw [parse_emit x g _ hx]
              dsimp only
              rw [parseItems_emit (.cons y t2)
                (by intro hc; exact JsonList.noConfusion hc) g rest ht]

theorem parseFields_emit (o : JsonObj) (hne : o ≠ .onil) :
    ∀ (f : Nat) (rest : List Tok), tsizeO o < f →
    parseFields f (emitFields o ++ .rb :: rest) = some (o, rest) := by
  cases o with
  | onil => exact absurd rfl hne
  | ocons k v t =>
      intro f rest h
      cases f with
      | zero => omega
      | succ g =>
          cases t with
          | onil =>
              have hv : tsize v < g := by
                simp only [tsizeO] at h
                omega
              simp only [emitFields, List.cons_append, parseFields]
              rw [parse_emit v g (.rb :: rest) hv]
          | ocons k2 v2 t2 =>
              have hv : tsize v < g := by
                simp only [tsizeO] at h
                omega
              have ht : tsizeO (.ocons k2 v2 t2) < g := by
                have hp := tsize_pos v
                simp only [tsizeO] at h ⊢
                omega
              simp only [emitFields, List.append_assoc, List.cons_append, parseFields]
              rw [parse_emit v g _ hv]
              dsimp only
              rw [parseFields_emit (.ocons k2 v2 t2)
                (by intro hc; exact JsonObj.noConfusion hc) g rest ht]

end

mutual

theorem tsize_le (v : Json) : tsize v ≤ 2 * (emit v).length := by
  cases v with
  | null => simp [tsize, emit]
  | bool b => simp [tsize, emit]
  | num n => simp [tsize, emit]
  | str s => simp [tsize, emit]
  | arr l =>
      cases l with
      | nil => simp [tsize, tsizeL, emit]
      | cons x t =>
          have h := tsizeL_le (JsonList.cons x t)
          simp only [tsize, emit, List.length_cons, List.length_append,
            List.length_singleton]
          omega
  | obj o =>
      cases o with
      | onil => simp [tsize, tsizeO, emit]
      | ocons k v t =>
          have h := tsizeO_le (JsonObj.ocons k v t)
          simp only [tsize, emit, List.length_cons, List.length_append,
            List.length_singleton]
          omega

theorem tsizeL_le (l : JsonList) : tsizeL l ≤ 2 * (emitItems l).length + 1 := by
  cases l with
  | nil => simp [tsizeL]
  | cons x t =>
      cases t with
      | nil =>
          have h := tsize_le x
          simp only [tsizeL, emitItems]
          omega
      | cons y t2 =>
          have h1 := tsize_le x
          have h2 := tsizeL_le (JsonList.cons y t2)
          have hu1 : tsizeL (JsonList.cons x (JsonList.cons y t2))
              = tsize x + 1 + tsizeL (JsonList.cons y t2) := rfl
          have hu2 : emitItems (JsonList.cons x (JsonList.cons y t2))
              = emit x ++ .cm :: emitItems (JsonList.cons y t2) := rfl
          rw [hu1, hu2]
          simp only [List.length_append, List.length_cons]
          omega

theorem tsizeO_le (o : JsonObj) : tsizeO o ≤ 2 * (emitFields o).length + 1 := by
  cases o with
  | onil => simp [tsizeO]
  | ocons k v t =>
      cases t with
      | onil =>
          have h := tsize_le v
          simp only [tsizeO, emitFields, List.length_cons]
          omega
      | ocons k2 v2 t2 =>
          have h1 := tsize_le v
          have h2 := tsizeO_le (JsonObj.ocons k2 v2 t2)
          have hu1 : tsizeO (JsonObj.ocons k v (JsonObj.ocons k2 v2 t2))
              = tsize v + 1 + tsizeO (JsonObj.ocons k2 v2 t2) := rfl
          have hu2 : emitFields (JsonObj.ocons k v (JsonObj.ocons k2 v2 t2))
              = .tstr k :: .cl :: emit v ++ .cm :: emitFields (JsonObj.ocons k2 v2 t2) := rfl
          rw [hu1, hu2]
          simp only [List.length_append, List.length_cons]
          omega

end

/-- `JSON.parse (JSON.stringify v null "\t") = v`: the builtin codec
round-trips every JSON value in the model. -/
theorem jsonParse_render (v : Json) : jsonParse (render v 0) = some v := by
  unfold jsonParse
  rw [tokenize_render]
  have h := parse_emit v (2 * (emit v).length + 1) []
    (by have := tsize_le v; omega)
  rw [List.append_nil] at h
  dsimp only
  rw [h]

/-! ## Claim C7 -/

/-- C7: with default options, `set` followed by `get` at the same identifier
round-trips every JSON value: unconditionally on the Cache Backend (the value
is stored as-is in the map), and on the File Backend whenever the write
succeeds (the stored text is `JSON.stringify(v, null, "\t")` and `get` parses
it back to an equal value). -/
theorem c7_set_get_roundtrip :
    (∀ (c : CacheStorage) (id : Str) (v : Json),
      (c.set id v defaultOpts).2 = true ∧
      ((c.set id v defaultOpts).1).get id defaultOpts = some v)
    ∧ (∀ (fs fs' : FileSys) (id : Str) (v : Json),
      FileStorage.set fs id v defaultOpts = (fs', true) →
      FileStorage.get fs' id defaultOpts = .ok (some v)) := by
  constructor
  · intro c id v
    have hset : CacheStorage.set c id v defaultOpts
        = (⟨mapSet c.storage (idPath id none) v⟩,
           mapHas (mapSet c.storage (idPath id none) v) (idPath id none)) := rfl
    rw [hset]
    constructor
    · show mapHas (mapSet c.storage (idPath id none) v) (idPath id none) = true
      unfold mapHas
      rw [mapGet_mapSet_self]
      rfl
    · show CacheStorage.get ⟨mapSet c.storage (idPath id none) v⟩ id defaultOpts
        = some v
      have hget : CacheStorage.get ⟨mapSet c.storage (idPath id none) v⟩ id
          defaultOpts = mapGet (mapSet c.storage (idPath id none) v)
          (idPath id none) := rfl
      rw [hget, mapGet_mapSet_self]
  · intro fs fs' id v hset
    have hunf : FileStorage.set fs id v defaultOpts
        = fsWrite (fsMkdir fs (parentOf (idPath id none))).1 (idPath id none)
            (render v 0) := rfl
    rw [hunf] at hset
    unfold fsWrite at hset
    split at hset
    · rw [Prod.mk.injEq] at hset
      obtain ⟨hfs, _⟩ := hset
      subst hfs
      have hread : fsRead
          ⟨(fsMkdir fs (parentOf (idPath id none))).1.dirs,
            mapSet (fsMkdir fs (parentOf (idPath id none))).1.files
              (idPath id none) (render v 0)⟩ (idPath id none)
          = some (render v 0) := mapGet_mapSet_self _ _ _
      have hget : ∀ (g : FileSys), fsRead g (idPath id none) = some (render v 0) →
          FileStorage.get g id defaultOpts = .ok (some v) := by
        intro g hr
        unfold FileStorage.get
        simp only [defaultOpts, rawExt, Bool.false_eq_true, if_false]
        rw [hr]
        dsimp only
        rw [jsonParse_render]
      exact hget _ hread
    · rw [Prod.mk.injEq] at hset
      exact absurd hset.2 (by simp)

/-- C7 witness: writing the object `{"a": "b\"c"}` at a fresh identifier on a
File store rooted at an existing `./data` succeeds, and reading it back
returns the same value. -/
theorem c7_set_get_roundtrip_witness :
    FileStorage.get (FileStorage.set ⟨[".".toList, "./data".toList], []⟩
        "x".toList (.obj (.ocons "a".toList (.str "b\"c".toList) .onil))
        defaultOpts).1 "x".toList defaultOpts
      = .ok (some (.obj (.ocons "a".toList (.str "b\"c".toList) .onil))) :=
  c7_set_get_roundtrip.2 ⟨[".".toList, "./data".toList], []⟩ _ "x".toList
    (.obj (.ocons "a".toList (.str "b\"c".toList) .onil)) rfl
